import Mathlib

set_option maxHeartbeats 1000000

/-! Shallow embedding of the shrem secure-deletion tool (src/main.rs).

Path component names are modelled as byte lists (`OsStrExt::as_bytes` on Unix),
so a name's `List.length` is exactly the Rust `name.as_bytes().len()`.
The filesystem is a finite list of entries (path plus directory flag); the
external overwrite subprocess is an oracle given by its exit status; terminal
input is an `Except Unit String` (a read can fail, as `io::stdin().read_line`
can).  Side effects other than stdout logging are recorded in a trace of
events so that frame conditions can be stated. -/

/-- Byte string of one path component (the bytes of an `OsStr` on Unix). -/
abbrev FName := List Nat

/-- A filesystem path: absolute flag plus the list of normal components.
`⟨true, []⟩` is the filesystem root `/`. -/
structure FPath where
  absolute : Bool
  components : List FName
  deriving DecidableEq, Repr

/-- Rust `Path::parent`: `None` exactly when there is no component
(the root `/`, or an empty relative path). -/
def FPath.parent? (p : FPath) : Option FPath :=
  match p.components with
  | [] => none
  | _ :: _ => some ⟨p.absolute, p.components.dropLast⟩

/-- Rust `Path::file_name`: the final normal component, if any. -/
def FPath.file_name (p : FPath) : Option FName := p.components.getLast?

/-- Rust `PathBuf::set_file_name`: replace the final component
(or append one when there is none). -/
def FPath.set_file_name (p : FPath) (s : FName) : FPath :=
  ⟨p.absolute, p.components.dropLast ++ [s]⟩

/-- One filesystem entry: its path and whether it is a directory. -/
structure Entry where
  path : FPath
  isDir : Bool
  deriving DecidableEq, Repr

/-- A filesystem state: the finite list of existing entries. -/
abbrev FS := List Entry

/-- Rust `Path::exists` against the modelled filesystem. -/
def existsFS (fs : FS) (p : FPath) : Bool :=
  fs.any fun e => decide (e.path = p)

/-- Rust `Path::is_dir` against the modelled filesystem. -/
def isDirFS (fs : FS) (p : FPath) : Bool :=
  fs.any fun e => decide (e.path = p) && e.isDir

/-- Whether `q` lies in the subtree rooted at `p` (including `q = p`). -/
def FPath.under (q p : FPath) : Bool :=
  (q.absolute == p.absolute) && p.components.isPrefixOf q.components

/-- Rust `fs::rename old np`: the whole subtree at `old` moves below `np`. -/
def renameFS (fs : FS) (old np : FPath) : FS :=
  fs.map fun e =>
    if e.path.under old then
      { e with path := ⟨np.absolute, np.components ++ e.path.components.drop old.components.length⟩ }
    else e

/-- The error taxonomy of `enum ShremError` (the `io::Error` payload and the
`ExitStatus` payload are abstracted to nothing resp. the raw status). -/
inductive ShremError where
  | ioError
  | preservedRootError
  | externalProcessError (status : Nat)
  | notFound (p : FPath)
  | isADirectory (p : FPath)
  deriving DecidableEq, Repr

deriving instance DecidableEq for Except

/-- Rust `fs::remove_dir`: fails (an `io::Error`, here `.ioError`) unless the
path exists, is a directory and has no proper descendants. -/
def removeDir (fs : FS) (p : FPath) : Except ShremError FS :=
  if !(existsFS fs p) || !(isDirFS fs p)
      || fs.any (fun e => decide (e.path ≠ p) && e.path.under p) then
    .error .ioError
  else
    .ok (fs.filter fun e => decide (e.path ≠ p))

/-- The `Config` struct, field for field. -/
structure Config where
  recursive : Bool
  force : Bool
  verbose : Bool
  interactive : Bool
  preserve_root : Bool
  no_remove : Bool
  iterations : Option Nat
  deriving DecidableEq, Repr

/-- One argument of a spawned command: either a literal string (an option
flag) or a path passed via `path.as_os_str()`. -/
inductive Arg where
  | str (s : String)
  | path (p : FPath)
  deriving DecidableEq, Repr

/-- A `std::process::Command` being assembled: program plus argument list. -/
structure Command where
  program : String
  args : List Arg
  deriving DecidableEq, Repr

/-- `Command::arg`: appends one argument. -/
def Command.arg (c : Command) (a : Arg) : Command :=
  { c with args := c.args ++ [a] }

/-- The `get_shred_cmd` function: builds the external `shred` invocation.
Note that the iteration count is passed as the single argument
`format!("-n {}", n)`, not as two arguments. -/
def get_shred_cmd (config : Config) : Command :=
  let c := Command.mk "shred" []
  let c := c.arg (.str "-z")
  let c := if !config.no_remove then c.arg (.str "-u") else c
  let c := if config.verbose then c.arg (.str "-v") else c
  match config.iterations with
  | some n => c.arg (.str ("-n " ++ toString n))
  | none => c

/-- The `prompt` function.  `input` is the result of flushing stdout and
reading one line from stdin; a failed flush or read propagates as an error
(the two `?` operators), a successfully read line answers yes exactly when
its first character is `y` or `Y`. -/
def prompt (input : Except Unit String) : Except Unit Bool :=
  match input with
  | .error e => .error e
  | .ok s =>
    match s.data with
    | [] => .ok false
    | c :: _ => .ok (c == 'y' || c == 'Y')

/-- The byte string `CHARS = b"0123456789abcdefghijklmnopqrstuvwxyzABCDEFGHIJKLMNOPQRSTUVWXYZ_"`. -/
def CHARS : List Nat :=
  [48, 49, 50, 51, 52, 53, 54, 55, 56, 57,
   97, 98, 99, 100, 101, 102, 103, 104, 105, 106, 107, 108, 109, 110, 111, 112,
   113, 114, 115, 116, 117, 118, 119, 120, 121, 122,
   65, 66, 67, 68, 69, 70, 71, 72, 73, 74, 75, 76, 77, 78, 79, 80,
   81, 82, 83, 84, 85, 86, 87, 88, 89, 90,
   95]

/-- `CHARS[i]` (in the loop the index is always in bounds; the default is
irrelevant there). -/
def charAt (i : Nat) : Nat := CHARS.getD i 0

/-- The digit-increment `for` loop of `generate_new_path`, acting on the
reversed index vector (least-significant digit first, because the Rust loop
runs over `idxs.iter_mut().enumerate().rev()`): increment a digit; a
non-most-significant digit that reaches `CHARS.len()` wraps to 0 and carries,
anything else stops the loop.  The most-significant digit (position 0 in the
Rust vector, last element here) is incremented without wrapping. -/
def incAux : List Nat → List Nat
  | [] => []
  | [x] => [x + 1]
  | x :: y :: xs => if x + 1 = CHARS.length then 0 :: incAux (y :: xs) else (x + 1) :: y :: xs

/-- The same increment on the index vector in the source's own
most-significant-first order. -/
def incIdxs (idxs : List Nat) : List Nat :=
  (incAux idxs.reverse).reverse

/-- The `while idxs[0] < CHARS.len()` loop of `generate_new_path`, with
explicit fuel (the loop is proved below to need at most `63 ^ length + 1`
iterations, so the fuel passed by `generate_new_path` never runs out).
Each iteration builds the candidate name from the current index vector,
returns the candidate sibling path if it does not exist, and otherwise
increments the index vector. -/
def genLoop (ex : FPath → Bool) (p : FPath) : List Nat → Nat → Option FPath
  | _, 0 => none
  | idxs, fuel + 1 =>
    if CHARS.length ≤ idxs.headD 0 then none
    else
      let cand := p.set_file_name (idxs.map charAt)
      if ex cand then genLoop ex p (incIdxs idxs) fuel else some cand

/-- The `generate_new_path` function.  `ex` is the live `Path::exists` check;
the result is `none` when the function would panic (`idxs[0]` on the empty
vector `vec![0; 0]`, i.e. `length = 0`), and `some r` for a normal return
with result `r`. -/
def generate_new_path (ex : FPath → Bool) (p : FPath) (length : Nat) :
    Option (Option FPath) :=
  match length with
  | 0 => none
  | n + 1 => some (genLoop ex p (List.replicate (n + 1) 0) (63 ^ (n + 1) + 1))

/-- Observable actions of a run (verbose stdout logging is not modelled). -/
inductive Event where
  | prompted
  | genCall (len : Nat)
  | renamed (old np : FPath)
  | removedDir (p : FPath)
  | execCmd (c : Command)
  | diag (p : FPath)
  deriving DecidableEq, Repr

/-- The rename loop of `shred_dir`: `for n in (1..len + 1).rev()`, i.e. the
lengths `n, n - 1, …, 1`.  A `None` from the generator breaks the loop; a
generator panic (impossible, `n ≥ 1` throughout) propagates as `none`. -/
def renameLoop (fs : FS) (p : FPath) : Nat → Option (FS × FPath × List Event)
  | 0 => some (fs, p, [])
  | n + 1 =>
    match generate_new_path (existsFS fs) p (n + 1) with
    | none => none
    | some none => some (fs, p, [Event.genCall (n + 1)])
    | some (some np) =>
      match renameLoop (renameFS fs p np) np n with
      | none => none
      | some (fs', p', tr) => some (fs', p', Event.genCall (n + 1) :: Event.renamed p np :: tr)

/-- The tail of `shred_dir`: `fs::remove_dir(&path)?` on the current path. -/
def dirRemovePhase (fs : FS) (p : FPath) : Except ShremError Unit × FS × List Event :=
  match removeDir fs p with
  | .error e => (.error e, fs, [])
  | .ok fs' => (.ok (), fs', [Event.removedDir p])

/-- The destructive part of `shred_dir` (after the confirmation prompt):
the rename loop when a final component exists, then the removal. -/
def dirBody (fs : FS) (p : FPath) : Option (Except ShremError Unit × FS × List Event) :=
  match p.file_name with
  | some nm =>
    match renameLoop fs p nm.length with
    | none => none
    | some (fs', p', tr) =>
      let r := dirRemovePhase fs' p'
      some (r.1, r.2.1, tr ++ r.2.2)
  | none =>
    let r := dirRemovePhase fs p
    some r

/-- The `shred_dir` function.  `ans` is the outcome of reading the prompt
answer (used only when `config.interactive`); the outer `Option` is `none`
when the function would panic (the `assert!(path.is_dir())`, or an
out-of-bounds index in the generator). -/
def shred_dir (fs : FS) (p : FPath) (config : Config) (ans : Except Unit Bool) :
    Option (Except ShremError Unit × FS × List Event) :=
  if !(existsFS fs p) then some (.error (.notFound p), fs, [])
  else if !(isDirFS fs p) then none
  else if config.preserve_root && p.absolute && decide (p.parent? = none) then
    some (.error .preservedRootError, fs, [])
  else if config.no_remove then some (.ok (), fs, [])
  else if !config.interactive then dirBody fs p
  else
    match ans with
    | .error _ => some (.error .ioError, fs, [Event.prompted])
    | .ok false => some (.ok (), fs, [Event.prompted])
    | .ok true => (dirBody fs p).map fun r => (r.1, r.2.1, Event.prompted :: r.2.2)

/-- Running the assembled `shred` command in `shred_file`: `st` is the
subprocess exit status; on success the external primitive has overwritten the
file and (unless `no_remove`) unlinked it. -/
def shredFileRun (fs : FS) (p : FPath) (config : Config) (st : Nat) :
    Except ShremError Unit × FS × List Event :=
  let cmd := (get_shred_cmd config).arg (.path p)
  if st = 0 then
    (.ok (), if config.no_remove then fs else fs.filter fun e => decide (e.path ≠ p),
     [Event.execCmd cmd])
  else
    (.error (.externalProcessError st), fs, [Event.execCmd cmd])

/-- The `shred_file` function. -/
def shred_file (fs : FS) (p : FPath) (config : Config) (ans : Except Unit Bool) (st : Nat) :
    Except ShremError Unit × FS × List Event :=
  if !(existsFS fs p) then (.error (.notFound p), fs, [])
  else if isDirFS fs p then (.error (.isADirectory p), fs, [])
  else if !config.interactive then shredFileRun fs p config st
  else
    match ans with
    | .error _ => (.error .ioError, fs, [Event.prompted])
    | .ok false => (.ok (), fs, [Event.prompted])
    | .ok true =>
      let r := shredFileRun fs p config st
      (r.1, r.2.1, Event.prompted :: r.2.2)

/-- One iteration of `main`'s per-path loop: in recursive mode a directory
goes to `shred_dir` and anything else to `shred_file`; otherwise always
`shred_file`. -/
def runOne (config : Config) (fs : FS) (p : FPath) (ans : Except Unit Bool) (st : Nat) :
    Option (Except ShremError Unit × FS × List Event) :=
  if config.recursive then
    if isDirFS fs p then shred_dir fs p config ans
    else some (shred_file fs p config ans st)
  else some (shred_file fs p config ans st)

/-- `main`'s loop over the requested paths, threading the error-accumulator
flag: a failure prints one stderr line (`.diag`), exits with code 1 at once
without `force`, and otherwise only forces a final exit code of 1. -/
def mainLoop (config : Config) (ans : Except Unit Bool) (st : Nat) :
    FS → List FPath → Bool → Option (Nat × FS × List Event)
  | fs, [], err => some (if err then 1 else 0, fs, [])
  | fs, p :: rest, err =>
    match runOne config fs p ans st with
    | none => none
    | some (res, fs', tr) =>
      match res with
      | .ok _ =>
        match mainLoop config ans st fs' rest err with
        | none => none
        | some (code, fs'', tr') => some (code, fs'', tr ++ tr')
      | .error _ =>
        if !config.force then some (1, fs', tr ++ [Event.diag p])
        else
          match mainLoop config ans st fs' rest true with
          | none => none
          | some (code, fs'', tr') => some (code, fs'', tr ++ [Event.diag p] ++ tr')

/-- The whole process: exit code, final filesystem, trace. -/
def runMain (config : Config) (paths : List FPath) (fs : FS) (ans : Except Unit Bool)
    (st : Nat) : Option (Nat × FS × List Event) :=
  mainLoop config ans st fs paths false

/-! Specification-side definitions: the mixed-radix value/digit view of the
generator's index vector, and observation predicates over traces. -/

/-- The base-63 digits of `v` (the alphabet `0-9a-zA-Z_` has 63 symbols, not
64 as the spec counts), least-significant first, padded to length `n`; the
most-significant digit is `v / 63 ^ (n - 1)` uncapped, mirroring the loop's
sentinel state where that digit may reach 63. -/
def lsbOfVal : Nat → Nat → List Nat
  | 0, _ => []
  | 1, v => [v]
  | n + 2, v => v % 63 :: lsbOfVal (n + 1) (v / 63)

/-- The value of a least-significant-first digit list. -/
def valL : List Nat → Nat
  | [] => 0
  | x :: xs => x + 63 * valL xs

/-- The value of a most-significant-first digit list. -/
def valMS (l : List Nat) : Nat :=
  l.foldl (fun a d => a * 63 + d) 0

/-- The symbol indices of the `k`-th candidate of length `n`, in the source's
most-significant-first order. -/
def digitsOfIdx (n k : Nat) : List Nat :=
  (lsbOfVal n k).reverse

/-- The `k`-th candidate name of length `n` over the 63-symbol alphabet. -/
def nameOfIdx (n k : Nat) : FName :=
  (digitsOfIdx n k).map charAt

/-- The new names chosen by the rename events of a trace, in order. -/
def newNames (tr : List Event) : List FName :=
  tr.filterMap fun e =>
    match e with
    | .renamed _ np => np.file_name
    | _ => none

/-- Replay a trace against a starting filesystem, checking that every rename's
target path did not exist at the moment of that rename. -/
def replayFresh : FS → List Event → Bool
  | _, [] => true
  | fs, Event.renamed old np :: tr => !(existsFS fs np) && replayFresh (renameFS fs old np) tr
  | fs, Event.removedDir p :: tr =>
    replayFresh (fs.filter fun e => decide (e.path ≠ p)) tr
  | fs, _ :: tr => replayFresh fs tr

/-- Whether a list of names has strictly decreasing byte lengths. -/
def strictShrink : List FName → Bool
  | [] => true
  | [_] => true
  | a :: b :: t => decide (b.length < a.length) && strictShrink (b :: t)

/-- Whether an event is a rename. -/
def isRenameEv : Event → Bool
  | .renamed _ _ => true
  | _ => false

/-- The argument list claimed by the spec, read literally: `-z` always, `-u`
unless overwrite-only, `-v` if verbose, the flag `-n` followed by the value
`N` when an iteration count is configured, then the single target path. -/
def specShredArgs (config : Config) (p : FPath) : List Arg :=
  [Arg.str "-z"]
    ++ (if !config.no_remove then [Arg.str "-u"] else [])
    ++ (if config.verbose then [Arg.str "-v"] else [])
    ++ (match config.iterations with
        | some n => [Arg.str "-n", Arg.str (toString n)]
        | none => [])
    ++ [Arg.path p]

/-- The amended argument list: as above, except that the iteration count is a
single argument `"-n N"` (option and value joined by one space). -/
def specShredArgsJoined (config : Config) (p : FPath) : List Arg :=
  [Arg.str "-z"]
    ++ (if !config.no_remove then [Arg.str "-u"] else [])
    ++ (if config.verbose then [Arg.str "-v"] else [])
    ++ (match config.iterations with
        | some n => [Arg.str ("-n " ++ toString n)]
        | none => [])
    ++ [Arg.path p]

/-! Concrete fixtures used by witnesses and counterexamples. -/

/-- Default configuration: non-recursive, no force, quiet, non-interactive,
preserve-root on (its default), removal on, default iteration count. -/
def cfgBase : Config := ⟨false, false, false, false, true, false, none⟩

/-- A relative directory path `d`. -/
def dirD : FPath := ⟨false, [[100]]⟩

/-- The file `d/a` inside `dirD`. -/
def fileDA : FPath := ⟨false, [[100], [97]]⟩

/-- A filesystem holding the directory `d` and the file `d/a`. -/
def fsD : FS := [⟨dirD, true⟩, ⟨fileDA, false⟩]

/-- The obfuscated name `0` that `d` gets renamed to. -/
def dirD0 : FPath := ⟨false, [[48]]⟩

/-- Where the child file ends up after the parent's rename. -/
def fileDA0 : FPath := ⟨false, [[48], [97]]⟩

/-- A relative directory path `ab` (a two-byte name). -/
def dirAB : FPath := ⟨false, [[97, 98]]⟩

/-- A filesystem holding only the empty directory `ab`. -/
def fsAB : FS := [⟨dirAB, true⟩]

/-- The first obfuscated name `00` (same byte length as `ab`). -/
def pZZ : FPath := ⟨false, [[48, 48]]⟩

/-- The second obfuscated name `0`. -/
def pZ : FPath := ⟨false, [[48]]⟩

/-- The trace `shred_dir` produces on `fsAB`/`dirAB`. -/
def trAB : List Event :=
  [Event.genCall 2, Event.renamed dirAB pZZ, Event.genCall 1, Event.renamed pZZ pZ,
   Event.removedDir pZ]

/-- A path that exists in no fixture filesystem. -/
def pMiss : FPath := ⟨false, [[109]]⟩

/-- The filesystem root `/`. -/
def rootP : FPath := ⟨true, []⟩

/-- A filesystem in which only the root exists. -/
def fsRoot : FS := [⟨rootP, true⟩]

/-- An existence oracle under which every name is free. -/
def exF : FPath → Bool := fun _ => false

/-- An existence oracle under which every name is taken. -/
def exT : FPath → Bool := fun _ => true

/-- A filesystem in which exactly the 63 single-symbol obfuscated sibling
names of `dirAB` exist — one entry per symbol of the alphabet. -/
def fs63 : FS := CHARS.map fun c => ⟨⟨false, [[c]]⟩, false⟩

/-! Helper lemmas about the digit odometer. -/

/-- The alphabet has 63 symbols (not 64: `0-9a-zA-Z_` is 10 + 26 + 26 + 1). -/
theorem chars_length : CHARS.length = 63 := by decide

/-- The padded digit list has length `n`. -/
theorem lsb_length : ∀ n v, (lsbOfVal n v).length = n
  | 0, _ => rfl
  | 1, _ => rfl
  | n + 2, v => by simp [lsbOfVal, lsb_length (n + 1) (v / 63)]

/-- Value 0 has the all-zero digit list. -/
theorem lsb_zero : ∀ n, lsbOfVal n 0 = List.replicate n 0
  | 0 => rfl
  | 1 => rfl
  | n + 2 => by
    show (0 % 63) :: lsbOfVal (n + 1) (0 / 63) = _
    rw [Nat.zero_mod, Nat.zero_div, lsb_zero (n + 1)]
    rfl

/-- The increment loop adds exactly one to the value. -/
theorem incAux_val : ∀ l : List Nat, l ≠ [] → valL (incAux l) = valL l + 1
  | [], h => absurd rfl h
  | [x], _ => by simp [incAux, valL]
  | x :: y :: xs, _ => by
    by_cases hx : x + 1 = CHARS.length
    · have hx' : x = 62 := by rw [chars_length] at hx; omega
      rw [show incAux (x :: y :: xs) = 0 :: incAux (y :: xs) by simp [incAux, hx]]
      simp [valL, incAux_val (y :: xs) (by simp), hx']
      ring
    · rw [show incAux (x :: y :: xs) = (x + 1) :: y :: xs by simp [incAux, hx]]
      simp [valL]
      ring

/-- The increment sends the digit list of `v` to that of `v + 1`. -/
theorem incAux_lsb : ∀ n v, incAux (lsbOfVal (n + 1) v) = lsbOfVal (n + 1) (v + 1)
  | 0, v => by simp [lsbOfVal, incAux]
  | n + 1, v => by
    obtain ⟨y, ys, hys⟩ : ∃ y ys, lsbOfVal (n + 1) (v / 63) = y :: ys := by
      cases hc : lsbOfVal (n + 1) (v / 63) with
      | nil => have := lsb_length (n + 1) (v / 63); rw [hc] at this; simp at this
      | cons y ys => exact ⟨y, ys, rfl⟩
    have hlist : lsbOfVal (n + 2) v = v % 63 :: y :: ys := by
      rw [show lsbOfVal (n + 2) v = v % 63 :: lsbOfVal (n + 1) (v / 63) from rfl, hys]
    have hrhs : lsbOfVal (n + 2) (v + 1) = (v + 1) % 63 :: lsbOfVal (n + 1) ((v + 1) / 63) := rfl
    rw [hlist, hrhs]
    by_cases hx : v % 63 + 1 = CHARS.length
    · have hx' : v % 63 = 62 := by rw [chars_length] at hx; omega
      rw [show incAux (v % 63 :: y :: ys) = 0 :: incAux (y :: ys) by simp [incAux, hx]]
      rw [← hys, incAux_lsb n (v / 63)]
      have h1 : (v + 1) % 63 = 0 := by omega
      have h2 : (v + 1) / 63 = v / 63 + 1 := by omega
      rw [h1, h2]
    · rw [show incAux (v % 63 :: y :: ys) = (v % 63 + 1) :: y :: ys by simp [incAux, hx]]
      have hlt : v % 63 < 62 := by
        rw [chars_length] at hx
        have := Nat.mod_lt v (show 0 < 63 by omega)
        omega
      have h1 : (v + 1) % 63 = v % 63 + 1 := by omega
      have h2 : (v + 1) / 63 = v / 63 := by omega
      rw [h1, h2, ← hys]

/-- Reconstructing the value from the digit list. -/
theorem valL_lsb : ∀ n v, valL (lsbOfVal (n + 1) v) = v
  | 0, v => by simp [lsbOfVal, valL]
  | n + 1, v => by
    show valL (v % 63 :: lsbOfVal (n + 1) (v / 63)) = v
    simp [valL, valL_lsb n (v / 63)]
    omega

/-- All digits of a value below `63 ^ (n + 1)` are below 63. -/
theorem lsb_lt : ∀ n v, v < 63 ^ (n + 1) → ∀ d ∈ lsbOfVal (n + 1) v, d < 63
  | 0, v, hv => by
    intro d hd
    simp [lsbOfVal] at hd
    subst hd
    simpa using hv
  | n + 1, v, hv => by
    intro d hd
    rw [show lsbOfVal (n + 2) v = v % 63 :: lsbOfVal (n + 1) (v / 63) from rfl] at hd
    rcases List.mem_cons.mp hd with h | h
    · omega
    · refine lsb_lt n (v / 63) ?_ d h
      have : (63 : Nat) ^ (n + 2) = 63 ^ (n + 1) * 63 := by ring
      rw [this] at hv
      exact Nat.div_lt_of_lt_mul (by omega)

/-- The digit view of the source's most-significant-first index vector:
its head is the top digit. -/
theorem digitsOfIdx_cons : ∀ n v, ∃ t, digitsOfIdx (n + 1) v = v / 63 ^ n :: t
  | 0, v => ⟨[], by simp [digitsOfIdx, lsbOfVal]⟩
  | n + 1, v => by
    obtain ⟨t, ht⟩ := digitsOfIdx_cons n (v / 63)
    refine ⟨t ++ [v % 63], ?_⟩
    unfold digitsOfIdx at ht ⊢
    rw [show lsbOfVal (n + 2) v = v % 63 :: lsbOfVal (n + 1) (v / 63) from rfl,
      List.reverse_cons, ht, List.cons_append]
    congr 1
    rw [Nat.div_div_eq_div_mul]
    congr 1
    ring

/-- The all-zero starting vector is the digit view of value 0. -/
theorem digitsOfIdx_zero (n : Nat) : digitsOfIdx n 0 = List.replicate n 0 := by
  rw [digitsOfIdx, lsb_zero, List.reverse_replicate]

/-- The head digit of the index vector, as seen by the loop guard. -/
theorem digitsOfIdx_headD (n v : Nat) : (digitsOfIdx (n + 1) v).headD 0 = v / 63 ^ n := by
  obtain ⟨t, ht⟩ := digitsOfIdx_cons n v
  rw [ht]
  rfl

/-- Characterization of the candidate loop: started at the digit vector of
value `v` with enough fuel, it returns the first index at or after `v` whose
candidate does not exist, as a sibling path. -/
theorem genLoop_spec (ex : FPath → Bool) (p : FPath) :
    ∀ fuel n v, 1 ≤ n → v ≤ 63 ^ n → 63 ^ n - v < fuel →
    genLoop ex p (digitsOfIdx n v) fuel =
      (((List.range' v (63 ^ n - v)).find? fun k => !ex (p.set_file_name (nameOfIdx n k))).map
        fun k => p.set_file_name (nameOfIdx n k)) := by
  intro fuel
  induction fuel with
  | zero => intro n v h1 h2 h3; omega
  | succ fuel ih =>
    intro n v h1 h2 h3
    obtain ⟨m, rfl⟩ : ∃ m, n = m + 1 := ⟨n - 1, by omega⟩
    rw [show genLoop ex p (digitsOfIdx (m + 1) v) (fuel + 1) =
        (if CHARS.length ≤ (digitsOfIdx (m + 1) v).headD 0 then none
         else
           if ex (p.set_file_name ((digitsOfIdx (m + 1) v).map charAt)) then
             genLoop ex p (incIdxs (digitsOfIdx (m + 1) v)) fuel
           else some (p.set_file_name ((digitsOfIdx (m + 1) v).map charAt))) from rfl]
    rw [digitsOfIdx_headD, chars_length]
    by_cases hv : v = 63 ^ (m + 1)
    · subst hv
      have hpow : (63 : Nat) ^ (m + 1) / 63 ^ m = 63 :=
        Nat.div_eq_of_eq_mul_left (by positivity) (by ring)
      rw [hpow, if_pos (by omega)]
      simp
    · have hvlt : v < 63 ^ (m + 1) := by omega
      rw [if_neg]
      · have hname : (digitsOfIdx (m + 1) v).map charAt = nameOfIdx (m + 1) v := rfl
        have hrange : 63 ^ (m + 1) - v = (63 ^ (m + 1) - (v + 1)) + 1 := by omega
        rw [hname, hrange,
          show List.range' v ((63 ^ (m + 1) - (v + 1)) + 1) =
            v :: List.range' (v + 1) (63 ^ (m + 1) - (v + 1)) from rfl]
        by_cases hex : ex (p.set_file_name (nameOfIdx (m + 1) v))
        · rw [if_pos hex]
          have hinc : incIdxs (digitsOfIdx (m + 1) v) = digitsOfIdx (m + 1) (v + 1) := by
            unfold incIdxs digitsOfIdx
            rw [List.reverse_reverse, incAux_lsb m v]
          rw [hinc, ih (m + 1) (v + 1) h1 (by omega) (by omega)]
          rw [List.find?_cons_of_neg _ (by simp [hex])]
        · rw [if_neg hex]
          rw [List.find?_cons_of_pos _ (by simp [hex])]
          rfl
      · push_neg
        have h63 : (0 : Nat) < 63 ^ m := by positivity
        rw [Nat.div_lt_iff_lt_mul h63]
        calc v < 63 ^ (m + 1) := hvlt
          _ = 63 * 63 ^ m := by ring

/-- `generate_new_path` returns the first free candidate in enumeration
order, over the `63 ^ length` candidates. -/
theorem gnp_spec (ex : FPath → Bool) (p : FPath) (n : Nat) (h : 1 ≤ n) :
    generate_new_path ex p n =
      some (((List.range (63 ^ n)).find? fun k => !ex (p.set_file_name (nameOfIdx n k))).map
        fun k => p.set_file_name (nameOfIdx n k)) := by
  obtain ⟨m, rfl⟩ : ∃ m, n = m + 1 := ⟨n - 1, by omega⟩
  show some (genLoop ex p (List.replicate (m + 1) 0) (63 ^ (m + 1) + 1)) = _
  rw [← digitsOfIdx_zero, genLoop_spec ex p (63 ^ (m + 1) + 1) (m + 1) 0 (by omega)
    (Nat.zero_le _) (by rw [Nat.sub_zero]; exact Nat.lt_succ_self _)]
  rw [List.range_eq_range']
  rfl

/-- The candidate name at index `k` has exactly the requested length. -/
theorem nameOfIdx_length (n k : Nat) : (nameOfIdx n k).length = n := by
  simp [nameOfIdx, digitsOfIdx, lsb_length]

/-- With a positive length the generator cannot panic. -/
theorem gnp_ne_none (ex : FPath → Bool) (p : FPath) (n : Nat) (h : 1 ≤ n) :
    generate_new_path ex p n ≠ none := by
  obtain ⟨m, rfl⟩ : ∃ m, n = m + 1 := ⟨n - 1, by omega⟩
  simp [generate_new_path]

/-- A successfully generated path is a sibling that does not exist, with a
fresh name of exactly the requested length. -/
theorem gnp_some (ex : FPath → Bool) (p : FPath) (n : Nat) (q : FPath) (h1 : 1 ≤ n)
    (h : generate_new_path ex p n = some (some q)) :
    ex q = false ∧ ∃ s, q = p.set_file_name s ∧ s.length = n := by
  rw [gnp_spec ex p n h1] at h
  rw [Option.some.injEq, Option.map_eq_some'] at h
  obtain ⟨k, hfind, rfl⟩ := h
  have hpk := List.find?_some hfind
  refine ⟨by simpa using hpk, nameOfIdx n k, rfl, nameOfIdx_length n k⟩

/-! Lexicographic order of the candidate enumeration. -/

/-- Folding with an accumulator factors through the tail value. -/
theorem valMS_acc : ∀ (l : List Nat) (acc : Nat),
    l.foldl (fun a d => a * 63 + d) acc = acc * 63 ^ l.length + valMS l
  | [], acc => by simp [valMS]
  | x :: xs, acc => by
    have h1 := valMS_acc xs (acc * 63 + x)
    have h2 := valMS_acc xs x
    have hx : valMS (x :: xs) = x * 63 ^ xs.length + valMS xs := by
      show List.foldl (fun a d => a * 63 + d) (0 * 63 + x) xs = _
      rw [show 0 * 63 + x = x by ring, h2]
    show List.foldl (fun a d => a * 63 + d) (acc * 63 + x) xs = _
    rw [h1, hx, List.length_cons]
    ring

/-- The value of a digit list with head digit split off. -/
theorem valMS_cons (x : Nat) (xs : List Nat) :
    valMS (x :: xs) = x * 63 ^ xs.length + valMS xs := by
  show List.foldl (fun a d => a * 63 + d) (0 * 63 + x) xs = _
  rw [show 0 * 63 + x = x by ring, valMS_acc xs x]

/-- A digit list with all digits below 63 has value below `63 ^ length`. -/
theorem valMS_lt : ∀ l : List Nat, (∀ d ∈ l, d < 63) → valMS l < 63 ^ l.length
  | [], _ => by simp [valMS]
  | x :: xs, h => by
    have hx : x < 63 := h x (List.mem_cons_self x xs)
    have ht := valMS_lt xs fun d hd => h d (List.mem_cons_of_mem x hd)
    rw [valMS_cons, List.length_cons]
    calc x * 63 ^ xs.length + valMS xs < x * 63 ^ xs.length + 63 ^ xs.length := by omega
      _ = (x + 1) * 63 ^ xs.length := by ring
      _ ≤ 63 * 63 ^ xs.length := Nat.mul_le_mul_right _ (by omega)
      _ = 63 ^ (xs.length + 1) := by ring

/-- Splitting lexicographic comparison at the head. -/
theorem lex_cons_iff {a b : Nat} {t₁ t₂ : List Nat} :
    List.Lex (· < ·) (a :: t₁) (b :: t₂) ↔ a < b ∨ (a = b ∧ List.Lex (· < ·) t₁ t₂) := by
  constructor
  · intro h
    cases h with
    | rel h => exact .inl h
    | cons h => exact .inr ⟨rfl, h⟩
  · rintro (h | ⟨rfl, h⟩)
    · exact .rel h
    · exact .cons h

/-- On equal-length digit lists with digits below 63, lexicographic order is
numeric order of the values. -/
theorem lex_iff_val : ∀ l₁ l₂ : List Nat, l₁.length = l₂.length →
    (∀ d ∈ l₁, d < 63) → (∀ d ∈ l₂, d < 63) →
    (List.Lex (· < ·) l₁ l₂ ↔ valMS l₁ < valMS l₂)
  | [], [], _, _, _ => by
    constructor
    · intro h; cases h
    · intro h; simp [valMS] at h
  | [], b :: t₂, h, _, _ => by simp at h
  | a :: t₁, [], h, _, _ => by simp at h
  | a :: t₁, b :: t₂, h, h₁, h₂ => by
    have hlen : t₁.length = t₂.length := by simpa using h
    have ih := lex_iff_val t₁ t₂ hlen
      (fun d hd => h₁ d (List.mem_cons_of_mem a hd))
      (fun d hd => h₂ d (List.mem_cons_of_mem b hd))
    have hv₁ : valMS t₁ < 63 ^ t₁.length :=
      valMS_lt t₁ fun d hd => h₁ d (List.mem_cons_of_mem a hd)
    have hv₂ : valMS t₂ < 63 ^ t₂.length :=
      valMS_lt t₂ fun d hd => h₂ d (List.mem_cons_of_mem b hd)
    rw [lex_cons_iff, valMS_cons, valMS_cons, ← hlen]
    constructor
    · rintro (hab | ⟨rfl, hlex⟩)
      · calc a * 63 ^ t₁.length + valMS t₁
            < a * 63 ^ t₁.length + 63 ^ t₁.length := by omega
          _ = (a + 1) * 63 ^ t₁.length := by ring
          _ ≤ b * 63 ^ t₁.length := Nat.mul_le_mul_right _ (by omega)
          _ ≤ b * 63 ^ t₁.length + valMS t₂ := Nat.le_add_right _ _
      · have := ih.mp hlex
        omega
    · intro hval
      rcases Nat.lt_trichotomy a b with hab | hab | hab
      · exact .inl hab
      · subst hab
        exact .inr ⟨rfl, ih.mpr (by omega)⟩
      · exfalso
        have hv₂' : valMS t₂ < 63 ^ t₁.length := by rw [hlen]; exact hv₂
        have : b * 63 ^ t₁.length + valMS t₂
            < a * 63 ^ t₁.length + valMS t₁ := by
          calc b * 63 ^ t₁.length + valMS t₂
              < b * 63 ^ t₁.length + 63 ^ t₁.length := by omega
            _ = (b + 1) * 63 ^ t₁.length := by ring
            _ ≤ a * 63 ^ t₁.length := Nat.mul_le_mul_right _ (by omega)
            _ ≤ a * 63 ^ t₁.length + valMS t₁ := Nat.le_add_right _ _
        omega

/-- Folding the reversed list computes the least-significant-first value. -/
theorem valL_foldr : ∀ l : List Nat, List.foldr (fun x acc => acc * 63 + x) 0 l = valL l
  | [] => rfl
  | x :: xs => by
    show List.foldr (fun x acc => acc * 63 + x) 0 xs * 63 + x = _
    rw [valL_foldr xs]
    show valL xs * 63 + x = x + 63 * valL xs
    ring

/-- `valMS` of a reversed digit list is `valL` of the original. -/
theorem valMS_reverse (l : List Nat) : valMS l.reverse = valL l := by
  show List.foldl (fun a d => a * 63 + d) 0 l.reverse = _
  rw [List.foldl_reverse]
  exact valL_foldr l

/-- The value of the digit view of `k` is `k` itself. -/
theorem valMS_digitsOfIdx (n k : Nat) (h : 1 ≤ n) : valMS (digitsOfIdx n k) = k := by
  obtain ⟨m, rfl⟩ : ∃ m, n = m + 1 := ⟨n - 1, by omega⟩
  rw [digitsOfIdx, valMS_reverse, valL_lsb]

/-- All digits of the digit view of `k < 63 ^ n` are below 63. -/
theorem digitsOfIdx_lt (n k : Nat) (h1 : 1 ≤ n) (hk : k < 63 ^ n) :
    ∀ d ∈ digitsOfIdx n k, d < 63 := by
  obtain ⟨m, rfl⟩ : ∃ m, n = m + 1 := ⟨n - 1, by omega⟩
  intro d hd
  exact lsb_lt m k hk d (List.mem_reverse.mp hd)

/-- The length of the digit view. -/
theorem digitsOfIdx_length (n k : Nat) : (digitsOfIdx n k).length = n := by
  simp [digitsOfIdx, lsb_length]

/-- Candidate enumeration is ascending in lexicographic order over the symbol
indices. -/
theorem digitsOfIdx_lex (n k₁ k₂ : Nat) (h : 1 ≤ n) (hk₁ : k₁ < 63 ^ n) (hk₂ : k₂ < 63 ^ n) :
    k₁ < k₂ ↔ List.Lex (· < ·) (digitsOfIdx n k₁) (digitsOfIdx n k₂) := by
  rw [lex_iff_val (digitsOfIdx n k₁) (digitsOfIdx n k₂)
    (by rw [digitsOfIdx_length, digitsOfIdx_length])
    (digitsOfIdx_lt n k₁ h hk₁) (digitsOfIdx_lt n k₂ h hk₂),
    valMS_digitsOfIdx n k₁ h, valMS_digitsOfIdx n k₂ h]

/-! Lemmas about traces of the directory obliterator. -/

/-- Setting a file name and reading it back. -/
theorem file_name_set (p : FPath) (s : FName) : (p.set_file_name s).file_name = some s := by
  simp [FPath.set_file_name, FPath.file_name]

/-- A trace without renames is vacuously fresh. -/
theorem replayFresh_no_rename : ∀ (tr : List Event) (fs : FS),
    (∀ e ∈ tr, isRenameEv e = false) → replayFresh fs tr = true
  | [], _, _ => rfl
  | e :: tr, fs, h => by
    have htr : ∀ e' ∈ tr, isRenameEv e' = false :=
      fun e' he' => h e' (List.mem_cons_of_mem e he')
    cases e with
    | prompted => exact replayFresh_no_rename tr fs htr
    | genCall len => exact replayFresh_no_rename tr fs htr
    | renamed old np => exact absurd (h _ (List.mem_cons_self _ _)) (by simp [isRenameEv])
    | removedDir q => exact replayFresh_no_rename tr _ htr
    | execCmd c => exact replayFresh_no_rename tr fs htr
    | diag q => exact replayFresh_no_rename tr fs htr

/-- Appending a rename-free tail preserves freshness of a trace. -/
theorem replayFresh_append : ∀ (tr₁ tr₂ : List Event) (fs : FS),
    (∀ e ∈ tr₂, isRenameEv e = false) → replayFresh fs tr₁ = true →
    replayFresh fs (tr₁ ++ tr₂) = true
  | [], tr₂, fs, h₂, _ => replayFresh_no_rename tr₂ fs h₂
  | e :: tr₁, tr₂, fs, h₂, h₁ => by
    cases e with
    | renamed old np =>
      rw [List.cons_append]
      rw [show replayFresh fs (Event.renamed old np :: tr₁) =
        (!(existsFS fs np) && replayFresh (renameFS fs old np) tr₁) from rfl] at h₁
      rw [show replayFresh fs (Event.renamed old np :: (tr₁ ++ tr₂)) =
        (!(existsFS fs np) && replayFresh (renameFS fs old np) (tr₁ ++ tr₂)) from rfl]
      rw [Bool.and_eq_true] at h₁
      rw [Bool.and_eq_true]
      exact ⟨h₁.1, replayFresh_append tr₁ tr₂ _ h₂ h₁.2⟩
    | removedDir q =>
      exact replayFresh_append tr₁ tr₂ _ h₂ h₁
    | prompted => exact replayFresh_append tr₁ tr₂ fs h₂ h₁
    | genCall len => exact replayFresh_append tr₁ tr₂ fs h₂ h₁
    | execCmd c => exact replayFresh_append tr₁ tr₂ fs h₂ h₁
    | diag q => exact replayFresh_append tr₁ tr₂ fs h₂ h₁

/-- A list whose head is shorter than `s` can be prepended. -/
theorem strictShrink_cons (s : FName) (l : List FName)
    (hhead : ∀ b, l.head? = some b → b.length < s.length) (hl : strictShrink l = true) :
    strictShrink (s :: l) = true := by
  cases l with
  | nil => rfl
  | cons b t =>
    show (decide (b.length < s.length) && strictShrink (b :: t)) = true
    rw [Bool.and_eq_true, decide_eq_true_iff]
    exact ⟨hhead b rfl, hl⟩


/-- Everything the rename loop guarantees: every chosen target was fresh at
the moment of its rename, the chosen names have strictly decreasing byte
lengths starting at exactly the requested top length, and the generator is
called only with positive lengths. -/
theorem renameLoop_facts : ∀ (n : Nat) (fs : FS) (p : FPath) fs' p' tr,
    renameLoop fs p n = some (fs', p', tr) →
    replayFresh fs tr = true ∧
    strictShrink (newNames tr) = true ∧
    (∀ s, (newNames tr).head? = some s → s.length = n) ∧
    (∀ m, Event.genCall m ∈ tr → 1 ≤ m)
  | 0, fs, p, fs', p', tr, h => by
    unfold renameLoop at h
    simp only [Option.some.injEq, Prod.mk.injEq] at h
    obtain ⟨rfl, rfl, rfl⟩ := h
    refine ⟨rfl, rfl, ?_, ?_⟩
    · intro s hs; simp [newNames] at hs
    · intro m hm; simp at hm
  | n + 1, fs, p, fs', p', tr, h => by
    unfold renameLoop at h
    split at h
    · exact Option.noConfusion h
    · rename_i hg
      simp only [Option.some.injEq, Prod.mk.injEq] at h
      obtain ⟨rfl, rfl, rfl⟩ := h
      refine ⟨rfl, rfl, ?_, ?_⟩
      · intro s hs; simp [newNames] at hs
      · intro m hm; simp at hm; omega
    · rename_i np hg
      split at h
      · exact Option.noConfusion h
      · rename_i fs₁ p₁ tr₁ hr
        simp only [Option.some.injEq, Prod.mk.injEq] at h
        obtain ⟨rfl, rfl, rfl⟩ := h
        obtain ⟨hfresh, hshrink, hhead, hgen⟩ := renameLoop_facts n _ _ _ _ _ hr
        obtain ⟨hex, s, rfl, hslen⟩ := gnp_some (existsFS fs) p (n + 1) np (by omega) hg
        have hnames : newNames (Event.genCall (n + 1) ::
            Event.renamed p (p.set_file_name s) :: tr₁) = s :: newNames tr₁ := by
          simp [newNames, file_name_set]
        refine ⟨?_, ?_, ?_, ?_⟩
        · show (!(existsFS fs (p.set_file_name s)) &&
            replayFresh (renameFS fs p (p.set_file_name s)) tr₁) = true
          rw [Bool.and_eq_true]
          exact ⟨by simp [hex], hfresh⟩
        · rw [hnames]
          refine strictShrink_cons s (newNames tr₁) ?_ hshrink
          intro b hb
          rw [hslen, hhead b hb]
          omega
        · intro s' hs'
          rw [hnames] at hs'
          simp at hs'
          rw [← hs', hslen]
        · intro m hm
          rcases List.mem_cons.mp hm with hm | hm
          · simp at hm; omega
          · rcases List.mem_cons.mp hm with hm | hm
            · simp at hm
            · exact hgen m hm

/-- The only error `removeDir` produces is a wrapped I/O error. -/
theorem removeDir_error (fs : FS) (p : FPath) (e : ShremError)
    (h : removeDir fs p = .error e) : e = .ioError := by
  unfold removeDir at h
  split at h
  · exact (Except.error.injEq .. ▸ h.symm : _)
  · exact Except.noConfusion h

/-- The removal phase issues no renames, no prompts and no generator calls,
and never reports a preserved-root error. -/
theorem dirRemovePhase_facts (fs : FS) (p : FPath) :
    (∀ e ∈ (dirRemovePhase fs p).2.2, isRenameEv e = false) ∧
    newNames (dirRemovePhase fs p).2.2 = [] ∧
    (∀ m, Event.genCall m ∉ (dirRemovePhase fs p).2.2) ∧
    (dirRemovePhase fs p).1 ≠ Except.error ShremError.preservedRootError := by
  unfold dirRemovePhase
  cases hrm : removeDir fs p with
  | error e =>
    refine ⟨by simp, by simp [newNames], by simp, ?_⟩
    have := removeDir_error fs p e hrm
    subst this
    simp
  | ok fs' =>
    refine ⟨by simp [isRenameEv], by simp [newNames], by simp, by simp⟩

/-- Facts about the destructive body of `shred_dir`. -/
theorem dirBody_facts (fs : FS) (p : FPath) (res : Except ShremError Unit) (fs' : FS)
    (tr : List Event) (h : dirBody fs p = some (res, fs', tr)) :
    replayFresh fs tr = true ∧
    strictShrink (newNames tr) = true ∧
    (∀ nm s, p.file_name = some nm → (newNames tr).head? = some s → s.length = nm.length) ∧
    (∀ m, Event.genCall m ∈ tr → 1 ≤ m) ∧
    res ≠ Except.error ShremError.preservedRootError := by
  unfold dirBody at h
  split at h
  · rename_i nm hnm
    split at h
    · exact Option.noConfusion h
    · rename_i fs₁ p₁ tr₁ hr
      simp only [Option.some.injEq, Prod.mk.injEq] at h
      obtain ⟨rfl, rfl, rfl⟩ := h
      obtain ⟨hfresh, hshrink, hhead, hgen⟩ := renameLoop_facts nm.length fs p fs₁ p₁ tr₁ hr
      obtain ⟨hnoren, hnn, hnogen, hnopres⟩ := dirRemovePhase_facts fs₁ p₁
      refine ⟨?_, ?_, ?_, ?_, hnopres⟩
      · exact replayFresh_append tr₁ _ fs hnoren hfresh
      · rw [newNames, List.filterMap_append, ← newNames, ← newNames, hnn, List.append_nil]
        exact hshrink
      · intro nm' s hnm' hs
        rw [newNames, List.filterMap_append, ← newNames, ← newNames, hnn, List.append_nil] at hs
        rw [hnm] at hnm'
        have hnm'' : nm' = nm := by injection hnm' with h'; exact h'.symm
        subst hnm''
        exact hhead s hs
      · intro m hm
        rcases List.mem_append.mp hm with hm | hm
        · exact hgen m hm
        · exact absurd hm (hnogen m)
  · rename_i hnm
    obtain ⟨hnoren, hnn, hnogen, hnopres⟩ := dirRemovePhase_facts fs p
    simp only [Option.some.injEq] at h
    have h1 : res = (dirRemovePhase fs p).1 := by rw [h]
    have h3 : tr = (dirRemovePhase fs p).2.2 := by rw [h]
    refine ⟨?_, ?_, ?_, ?_, h1 ▸ hnopres⟩
    · rw [h3]; exact replayFresh_no_rename _ fs hnoren
    · rw [h3, hnn]; rfl
    · intro nm s hnm' hs
      rw [hnm] at hnm'
      exact Option.noConfusion hnm'
    · intro m hm
      rw [h3] at hm
      exact absurd hm (hnogen m)

/-- Omnibus facts about `shred_dir`: rename targets are always fresh, chosen
names shrink strictly from the original's byte length, generator calls have
positive lengths, and with `preserve_root` disabled no preserved-root error
can arise. -/
theorem shred_dir_facts (fs : FS) (p : FPath) (config : Config) (ans : Except Unit Bool)
    (res : Except ShremError Unit) (fs' : FS) (tr : List Event)
    (h : shred_dir fs p config ans = some (res, fs', tr)) :
    replayFresh fs tr = true ∧
    strictShrink (newNames tr) = true ∧
    (∀ nm s, p.file_name = some nm → (newNames tr).head? = some s → s.length = nm.length) ∧
    (∀ m, Event.genCall m ∈ tr → 1 ≤ m) ∧
    (config.preserve_root = false → res ≠ Except.error ShremError.preservedRootError) := by
  unfold shred_dir at h
  split at h
  · simp only [Option.some.injEq, Prod.mk.injEq] at h
    obtain ⟨rfl, rfl, rfl⟩ := h
    exact ⟨rfl, rfl, by intro nm s _ hs; simp [newNames] at hs, by intro m hm; simp at hm,
      by intro _; simp⟩
  · split at h
    · exact Option.noConfusion h
    · split at h
      · rename_i hroot
        simp only [Option.some.injEq, Prod.mk.injEq] at h
        obtain ⟨rfl, rfl, rfl⟩ := h
        refine ⟨rfl, rfl, by intro nm s _ hs; simp [newNames] at hs,
          by intro m hm; simp at hm, ?_⟩
        intro hpr
        rw [hpr] at hroot
        simp at hroot
      · split at h
        · simp only [Option.some.injEq, Prod.mk.injEq] at h
          obtain ⟨rfl, rfl, rfl⟩ := h
          exact ⟨rfl, rfl, by intro nm s _ hs; simp [newNames] at hs,
            by intro m hm; simp at hm, by intro _; simp⟩
        · split at h
          · obtain ⟨hfresh, hshrink, hhead, hgen, hnopres⟩ :=
              dirBody_facts fs p res fs' tr h
            exact ⟨hfresh, hshrink, hhead, hgen, fun _ => hnopres⟩
          · split at h
            · simp only [Option.some.injEq, Prod.mk.injEq] at h
              obtain ⟨rfl, rfl, rfl⟩ := h
              exact ⟨rfl, rfl, by intro nm s _ hs; simp [newNames] at hs,
                by intro m hm; simp at hm, by intro _; simp⟩
            · simp only [Option.some.injEq, Prod.mk.injEq] at h
              obtain ⟨rfl, rfl, rfl⟩ := h
              exact ⟨rfl, rfl, by intro nm s _ hs; simp [newNames] at hs,
                by intro m hm; simp at hm, by intro _; simp⟩
            · rw [Option.map_eq_some'] at h
              obtain ⟨⟨res₀, fs₀, tr₀⟩, hb, hval⟩ := h
              simp only [Prod.mk.injEq] at hval
              obtain ⟨rfl, rfl, rfl⟩ := hval
              obtain ⟨hfresh, hshrink, hhead, hgen, hnopres⟩ :=
                dirBody_facts fs p res₀ fs₀ tr₀ hb
              refine ⟨hfresh, ?_, ?_, ?_, fun _ => hnopres⟩
              · rw [show newNames (Event.prompted :: tr₀) = newNames tr₀ from rfl]
                exact hshrink
              · intro nm s hnm hs
                rw [show newNames (Event.prompted :: tr₀) = newNames tr₀ from rfl] at hs
                exact hhead nm s hnm hs
              · intro m hm
                rcases List.mem_cons.mp hm with hm | hm
                · exact absurd hm (by simp)
                · exact hgen m hm

/-! The claims. -/

/-- C1: refuted by evaluating the code — the recursive walker never lists a
directory's entries and never recurses into them.  On a directory `d`
containing the file `d/a`, `shred_dir` performs no operation at all on the
child (its full trace is one generator call and one rename of `d` itself),
then fails inside `fs::remove_dir` because the directory is not empty; the
child file survives (under the renamed parent `0/a`) unerased, and the
process exits 1.  This contradicts the claimed post-order recursion (and the
program's own `-r` help text, "Remove directories and their contents
recursively"). -/
theorem c1_code_eval :
    shred_dir fsD dirD { cfgBase with recursive := true } (Except.ok true) =
      some (Except.error ShremError.ioError, [⟨dirD0, true⟩, ⟨fileDA0, false⟩],
        [Event.genCall 1, Event.renamed dirD dirD0]) ∧
    runMain { cfgBase with recursive := true } [dirD] fsD (Except.ok true) 0 =
      some (1, [⟨dirD0, true⟩, ⟨fileDA0, false⟩],
        [Event.genCall 1, Event.renamed dirD dirD0, Event.diag dirD]) := by
  decide

/-- C2: refuted by evaluating the code — with `force` enabled on a
nonexistent path, `shred_file` still returns `NotFound` (there is no
force-skip before the existence check), `main` still prints a diagnostic,
and the accumulated error flag still makes the process exit 1, in both
recursive and non-recursive mode.  This contradicts the claimed silent
success (and the program's own `--force` help text, "Ignore nonexistent
files and errors"). -/
theorem c2_code_eval :
    shred_file [] pMiss { cfgBase with force := true } (Except.ok true) 0 =
      (Except.error (ShremError.notFound pMiss), [], []) ∧
    runMain { cfgBase with force := true } [pMiss] [] (Except.ok true) 0 =
      some (1, [], [Event.diag pMiss]) ∧
    runMain { cfgBase with force := true, recursive := true } [pMiss] [] (Except.ok true) 0 =
      some (1, [], [Event.diag pMiss]) := by
  decide

/-- C3: on an absolute path with no parent (the root), with `preserve_root`
set, `shred_dir` fails with `PreservedRootError` leaving the filesystem
untouched and an empty trace (no rename, no removal, no prompt), for every
`force` setting; and with `preserve_root` disabled no run of `shred_dir` can
ever produce `PreservedRootError`, so the operation proceeds past this
check. -/
theorem c3_preserved_root :
    (∀ (fs : FS) (p : FPath) (config : Config) (ans : Except Unit Bool),
      existsFS fs p = true → isDirFS fs p = true →
      config.preserve_root = true → p.absolute = true → p.parent? = none →
      shred_dir fs p config ans = some (Except.error ShremError.preservedRootError, fs, [])) ∧
    (∀ (fs : FS) (p : FPath) (config : Config) (ans : Except Unit Bool)
      (r : Except ShremError Unit × FS × List Event),
      config.preserve_root = false → shred_dir fs p config ans = some r →
      r.1 ≠ Except.error ShremError.preservedRootError) := by
  constructor
  · intro fs p config ans h1 h2 h3 h4 h5
    simp [shred_dir, h1, h2, h3, h4, h5]
  · intro fs p config ans r h hsome
    obtain ⟨res, fs', tr⟩ := r
    exact (shred_dir_facts fs p config ans res fs' tr hsome).2.2.2.2 h

/-- C3 witness: concrete instances — the root `/` is refused with
`preserve_root` (even under `force`), and with `preserve_root` disabled the
result of the same call is not a preserved-root error. -/
theorem c3_preserved_root_witness :
    shred_dir fsRoot rootP { cfgBase with recursive := true, force := true } (Except.ok true) =
      some (Except.error ShremError.preservedRootError, fsRoot, []) ∧
    (Except.ok () : Except ShremError Unit) ≠ Except.error ShremError.preservedRootError := by
  constructor
  · exact c3_preserved_root.1 fsRoot rootP _ _ (by decide) (by decide) (by decide) (by decide)
      (by decide)
  · exact c3_preserved_root.2 fsRoot rootP { cfgBase with preserve_root := false }
      (Except.ok true) (Except.ok (), [], [Event.removedDir rootP]) (by decide) (by decide)

/-- C4: refuted by evaluating the code — the rename chain does NOT start
strictly below the original name's length: on the directory `ab` (2 bytes)
the first generated name is `00`, also 2 bytes, because the loop runs
`for n in (1..len + 1).rev()` and so begins at `n = len` itself.  The chain
including the original name (`ab`, `00`, `0`) is therefore not strictly
shrinking at its first step. -/
theorem c4_rename_chain_counterexample :
    shred_dir fsAB dirAB cfgBase (Except.ok true) = some (Except.ok (), [], trAB) ∧
    strictShrink (([97, 98] : FName) :: newNames trAB) = false := by
  decide

/-- C4 amended: in every rename chain produced by `shred_dir`, each chosen
name did not exist in the filesystem at the moment of its rename, the chosen
names have strictly decreasing byte lengths among themselves, and the FIRST
chosen name has the same byte length as the directory's original name (each
later one is strictly shorter than its predecessor). -/
theorem c4_rename_chain_amended (fs : FS) (p : FPath) (config : Config)
    (ans : Except Unit Bool) (res : Except ShremError Unit) (fs' : FS) (tr : List Event)
    (h : shred_dir fs p config ans = some (res, fs', tr)) :
    replayFresh fs tr = true ∧
    strictShrink (newNames tr) = true ∧
    (∀ nm s, p.file_name = some nm → (newNames tr).head? = some s → s.length = nm.length) := by
  obtain ⟨h1, h2, h3, _, _⟩ := shred_dir_facts fs p config ans res fs' tr h
  exact ⟨h1, h2, h3⟩

/-- C4 witness: the amended statement instantiated on the `ab` run. -/
theorem c4_rename_chain_witness :
    replayFresh fsAB trAB = true ∧ strictShrink (newNames trAB) = true ∧
    ([48, 48] : FName).length = ([97, 98] : FName).length := by
  have h := c4_rename_chain_amended fsAB dirAB cfgBase (Except.ok true)
    (Except.ok ()) [] trAB (by decide)
  exact ⟨h.1, h.2.1, h.2.2 [97, 98] [48, 48] (by decide) (by decide)⟩

/-- C5: refuted by evaluating the code — the alphabet `0-9a-zA-Z_` has 63
symbols, not 64, so there are `63 ^ length` candidates, not `64 ^ length`.
Concretely, over a filesystem with only 63 entries (so 64 distinct candidate
paths cannot possibly all exist) the generator at length 1 already reports
exhaustion, contradicting "returns no result exactly when all `64 ^ length`
candidates exist". -/
theorem c5_name_generator_counterexample :
    generate_new_path (existsFS fs63) dirAB 1 = some none ∧ fs63.length = 63 := by
  decide

/-- C5 amended: for every length ≥ 1, the generator enumerates the
`63 ^ length` candidate names of exactly that length over the 63-symbol
alphabet `0-9a-zA-Z_` in ascending lexicographic order over symbol indices
(least-significant symbol varying fastest), returns the first candidate
sibling path that does not exist, and returns no result exactly when all
`63 ^ length` candidates exist. -/
theorem c5_name_generator (ex : FPath → Bool) (p : FPath) (n : Nat) (h : 1 ≤ n) :
    (generate_new_path ex p n =
      some (((List.range (63 ^ n)).find? fun k => !ex (p.set_file_name (nameOfIdx n k))).map
        fun k => p.set_file_name (nameOfIdx n k))) ∧
    (generate_new_path ex p n = some none ↔
      ∀ k, k < 63 ^ n → ex (p.set_file_name (nameOfIdx n k)) = true) ∧
    (∀ k, (nameOfIdx n k).length = n) ∧
    (∀ k₁ k₂, k₁ < 63 ^ n → k₂ < 63 ^ n →
      (k₁ < k₂ ↔ List.Lex (· < ·) (digitsOfIdx n k₁) (digitsOfIdx n k₂))) := by
  refine ⟨gnp_spec ex p n h, ?_, fun k => nameOfIdx_length n k,
    fun k₁ k₂ hk₁ hk₂ => digitsOfIdx_lex n k₁ k₂ h hk₁ hk₂⟩
  rw [gnp_spec ex p n h]
  simp only [Option.some.injEq, Option.map_eq_none']
  rw [List.find?_eq_none]
  constructor
  · intro hall k hk
    have := hall k (List.mem_range.mpr hk)
    simpa using this
  · intro hall k hk
    simp [hall k (List.mem_range.mp hk)]

/-- C5 witness: with every name free, the generator at length 1 returns the
first candidate `0` as a sibling path. -/
theorem c5_name_generator_witness :
    generate_new_path exF dirAB 1 = some (some pZ) := by
  have h := (c5_name_generator exF dirAB 1 (by decide)).1
  rw [h]
  decide

/-- C6: refuted by evaluating the code — when an iteration count is
configured, the external command receives the single argument `"-n 3"`
(`format!("-n {}", n)`), not the flag `-n` followed by the value as a
separate argument. -/
theorem c6_shred_args_counterexample :
    ((get_shred_cmd { cfgBase with iterations := some 3 }).arg (Arg.path dirAB)).args ≠
      specShredArgs { cfgBase with iterations := some 3 } dirAB := by
  decide

/-- C6 amended: the external overwrite subprocess is `shred`, invoked with
exactly `-z` always, `-u` unless `no_remove`, `-v` if verbose, the single
joined argument `"-n N"` when an iteration count `N` is configured, followed
by the single target file path. -/
theorem c6_shred_args_amended (config : Config) (p : FPath) :
    (get_shred_cmd config).program = "shred" ∧
    ((get_shred_cmd config).arg (Arg.path p)).args = specShredArgsJoined config p := by
  obtain ⟨rec, fo, vb, it, pr, nr, iter⟩ := config
  cases nr <;> cases vb <;> cases iter <;>
    simp [get_shred_cmd, Command.arg, specShredArgsJoined]

/-- C7: refuted by evaluating the code — a failure to read from standard
input is not treated as a negative answer: both `?` operators in `prompt`
propagate the I/O error to the caller instead of returning `Ok(false)`. -/
theorem c7_prompt_counterexample :
    prompt (Except.error ()) = Except.error () ∧
    prompt (Except.error ()) ≠ Except.ok false := by
  decide

/-- C7 amended: for a successfully read line the answer is affirmative
exactly when the first character is `y` or `Y` (an empty line is negative),
and a successfully read line never produces an error; but a failed flush or
read propagates as an I/O error rather than counting as a negative answer. -/
theorem c7_prompt_amended (s : String) :
    (prompt (Except.ok s) = Except.ok true ↔
      s.data.head? = some 'y' ∨ s.data.head? = some 'Y') ∧
    prompt (Except.ok s) ≠ Except.error () ∧
    prompt (Except.error ()) = Except.error () := by
  have hp : prompt (Except.ok s) =
      (match s.data with
       | [] => Except.ok false
       | c :: _ => Except.ok (c == 'y' || c == 'Y')) := rfl
  cases hs : s.data with
  | nil =>
    rw [hp, hs]
    exact ⟨by simp, by simp, rfl⟩
  | cons c t =>
    rw [hp, hs]
    refine ⟨?_, by simp, rfl⟩
    simp [Bool.or_eq_true, beq_iff_eq]

/-- C8: the generator with a positive length never panics (its index vector
is nonempty, so `idxs[0]` is in bounds), and every generator call recorded in
a trace of `shred_dir` carries a length of at least 1 — the rename loop runs
from the original name's byte length down to 1 and only when a final
component exists. -/
theorem c8_gen_length_safety :
    (∀ (ex : FPath → Bool) (p : FPath) (n : Nat), 1 ≤ n → generate_new_path ex p n ≠ none) ∧
    (∀ (fs : FS) (p : FPath) (config : Config) (ans : Except Unit Bool)
      (res : Except ShremError Unit × FS × List Event),
      shred_dir fs p config ans = some res → ∀ m, Event.genCall m ∈ res.2.2 → 1 ≤ m) := by
  constructor
  · exact fun ex p n h => gnp_ne_none ex p n h
  · intro fs p config ans res h m hm
    obtain ⟨res₁, fs', tr⟩ := res
    exact (shred_dir_facts fs p config ans res₁ fs' tr h).2.2.2.1 m hm

/-- C8 witness: the generator does not panic at length 1, and the generator
call recorded in the `ab` run (length 2) is positive. -/
theorem c8_gen_length_safety_witness :
    generate_new_path exF dirAB 1 ≠ none ∧ (1 : Nat) ≤ 2 := by
  constructor
  · exact c8_gen_length_safety.1 exF dirAB 1 (by decide)
  · exact c8_gen_length_safety.2 fsAB dirAB cfgBase (Except.ok true)
      (Except.ok (), [], trAB) (by decide) 2 (by decide)

/-- C9: refuted by evaluating the code — the alphabet has 63 symbols, so the
loop exits with no result as soon as the most-significant digit reaches 63
(`CHARS.len()`), which the digit does directly from 62; no digit ever
reaches 64, and on exhaustion no free name is returned. -/
theorem c9_gen_loop_bound_counterexample :
    generate_new_path exT dirAB 1 = some none ∧
    incIdxs [62] = [63] ∧
    genLoop exT dirAB [63] 5 = none ∧
    (63 : Nat) < 64 := by
  decide

/-- C9 amended: the enumeration loop terminates: the mixed-radix counter
increment strictly increases the counter's value by exactly one, so after at
most `63 ^ length + 1` guard evaluations (extra fuel changes nothing) either
a free name is returned or the most-significant digit has reached the
alphabet size 63 (not 64) and the loop exits with no result; with a positive
length, `generate_new_path` always returns normally with the loop's value. -/
theorem c9_gen_loop_bound :
    (∀ idxs : List Nat, idxs ≠ [] → valMS (incIdxs idxs) = valMS idxs + 1) ∧
    (∀ (ex : FPath → Bool) (p : FPath) (n extra : Nat), 1 ≤ n →
      genLoop ex p (List.replicate n 0) (63 ^ n + 1 + extra) =
        genLoop ex p (List.replicate n 0) (63 ^ n + 1)) ∧
    (∀ (ex : FPath → Bool) (p : FPath) (n : Nat), 1 ≤ n →
      generate_new_path ex p n = some (genLoop ex p (List.replicate n 0) (63 ^ n + 1))) := by
  refine ⟨?_, ?_, ?_⟩
  · intro idxs h
    have h1 : valMS ((incAux idxs.reverse).reverse) = valL (incAux idxs.reverse) :=
      valMS_reverse _
    have h2 : valMS idxs = valL idxs.reverse := by
      conv_lhs => rw [← List.reverse_reverse idxs]
      exact valMS_reverse _
    show valMS ((incAux idxs.reverse).reverse) = _
    rw [h1, incAux_val idxs.reverse (by simpa using h), h2]
  · intro ex p n extra h
    rw [← digitsOfIdx_zero,
      genLoop_spec ex p (63 ^ n + 1 + extra) n 0 h (Nat.zero_le _)
        (by rw [Nat.sub_zero, Nat.add_assoc]; exact Nat.lt_add_of_pos_right (by omega)),
      genLoop_spec ex p (63 ^ n + 1) n 0 h (Nat.zero_le _)
        (by rw [Nat.sub_zero]; exact Nat.lt_succ_self _)]
  · intro ex p n h
    obtain ⟨m, rfl⟩ : ∃ m, n = m + 1 := ⟨n - 1, by omega⟩
    rfl

/-- C9 witness: instances of the amended statement — one increment adds one
to the counter value, fuel beyond the bound changes nothing, and the
generator returns normally at length 1. -/
theorem c9_gen_loop_bound_witness :
    valMS (incIdxs [3]) = valMS [3] + 1 ∧
    genLoop exF dirAB (List.replicate 1 0) (63 ^ 1 + 1 + 7) =
      genLoop exF dirAB (List.replicate 1 0) (63 ^ 1 + 1) ∧
    generate_new_path exF dirAB 1 =
      some (genLoop exF dirAB (List.replicate 1 0) (63 ^ 1 + 1)) := by
  refine ⟨?_, ?_, ?_⟩
  · exact c9_gen_loop_bound.1 [3] (by decide)
  · exact c9_gen_loop_bound.2.1 exF dirAB 1 7 (by decide)
  · exact c9_gen_loop_bound.2.2 exF dirAB 1 (by decide)

/-- C10: once past the existence check, the directory-assertion and the
preserve-root check, a set `no_remove` makes `shred_dir` return success at
once: the filesystem is returned unchanged and the trace is empty — in
particular no prompt is issued even with `interactive` set, and no rename or
removal happens. -/
theorem c10_no_remove_frame :
    ∀ (fs : FS) (p : FPath) (config : Config) (ans : Except Unit Bool),
      existsFS fs p = true → isDirFS fs p = true →
      (config.preserve_root && p.absolute && decide (p.parent? = none)) = false →
      config.no_remove = true →
      shred_dir fs p config ans = some (Except.ok (), fs, []) := by
  intro fs p config ans h1 h2 h3 h4
  simp [shred_dir, h1, h2, h3, h4]

/-- C10 witness: a concrete interactive `no_remove` run returns success with
no prompt and no filesystem change. -/
theorem c10_no_remove_frame_witness :
    shred_dir fsAB dirAB { cfgBase with no_remove := true, interactive := true }
      (Except.ok true) = some (Except.ok (), fsAB, []) :=
  c10_no_remove_frame fsAB dirAB { cfgBase with no_remove := true, interactive := true }
    (Except.ok true) (by decide) (by decide) (by decide) (by decide)
